import Mathlib

/-!
Verification of the intermediate-hashes stage and the trie state cache of the
turbo-geth repository, against its natural-language specification.

Code embedded from:
- `eth/stagedsync/stage_interhashes.go` (SpawnIntermediateHashesStage,
  RegenerateIntermediateHashes, HashPromoter.Promote, incrementIntermediateHashes)
- `turbo/shards/trie_cache.go` (StateCache enumeration and seek operations)

Bytes are modelled as `Nat` values below 256 where it matters; byte strings as
`List Nat`; 32-byte hashes (`common.Hash`) that are only compared for
equality/order are modelled as `Nat` (fixed-length byte arrays compare
lexicographically, which agrees with numeric big-endian comparison); external
collaborators that are outside the provided sources (the etl framework, the
base ordered cache container, dbutils helpers, the stage-progress store) are
modelled from the spec, with their doc comments saying so.
-/

namespace TurboGeth

/-! ## Byte-level encoders (stage_interhashes.go, hash-node persistence)

`binary.BigEndian.PutUint16(newV, branchChildren)`;
`binary.BigEndian.PutUint16(newV[2:], children)`; then the 32-byte child
hashes are copied one after another starting at offset 4. -/

/-- `binary.BigEndian.PutUint16`: most significant byte first. -/
def putUint16BE (v : Nat) : List Nat :=
  [v % 65536 / 256, v % 256]

/-- `binary.BigEndian.PutUint64`: most significant byte first. -/
def putUint64BE (v : Nat) : List Nat :=
  [v % 2 ^ 64 / 2 ^ 56, v % 2 ^ 56 / 2 ^ 48, v % 2 ^ 48 / 2 ^ 40, v % 2 ^ 40 / 2 ^ 32,
   v % 2 ^ 32 / 2 ^ 24, v % 2 ^ 24 / 2 ^ 16, v % 2 ^ 16 / 2 ^ 8, v % 2 ^ 8]

/-- The value written for a persisted hash-node, as built by the
`WalkAccountHashesWrites` / `WalkStorageHashesWrites` update callbacks in
`RegenerateIntermediateHashes` and `incrementIntermediateHashes`
(stage_interhashes.go): 2-byte big-endian branch-children mask, 2-byte
big-endian children mask, then the child hashes (each 32 bytes) in order. -/
def encodeHashNodeValue (branchChildren children : Nat) (h : List (List Nat)) : List Nat :=
  putUint16BE branchChildren ++ putUint16BE children ++ h.flatten

/-- Modelled from the spec: `dbutils.GenerateCompositeStoragePrefix` (not in
the provided sources) — "the storage variant prefixing the account-hash +
incarnation (8-byte big-endian) to the key". -/
def generateCompositeStoragePrefix (addrHashBytes : List Nat) (incarnation : Nat)
    (pfx : List Nat) : List Nat :=
  addrHashBytes ++ putUint64BE incarnation ++ pfx

/-- A definition following the spec's words in §4.3 ("Numeric encoding of
masks is little-endian 16-bit"), for comparison with the source-derived
`encodeHashNodeValue`: least significant byte first. -/
def putUint16LEspec (v : Nat) : List Nat :=
  [v % 256, v % 65536 / 256]

/-- The hash-node value layout that §4.3's little-endian sentence would
prescribe, for comparison with `encodeHashNodeValue`. -/
def encodeHashNodeValueLEspec (branchChildren children : Nat) (h : List (List Nat)) : List Nat :=
  putUint16LEspec branchChildren ++ putUint16LEspec children ++ h.flatten

theorem putUint16BE_length (v : Nat) : (putUint16BE v).length = 2 := rfl

theorem putUint64BE_length (v : Nat) : (putUint64BE v).length = 8 := rfl

/-- Joining 32-byte chunks: the `i`-th chunk sits at offset `32 * i`. -/
theorem flatten_segment (h : List (List Nat)) (hlen : ∀ x ∈ h, x.length = 32) :
    ∀ i (hi : i < h.length), ((h.flatten.drop (32 * i)).take 32) = h.get ⟨i, hi⟩ := by
  induction h with
  | nil => intro i hi; simp at hi
  | cons x xs ih =>
      intro i hi
      have hx : x.length = 32 := hlen x (List.mem_cons_self _ _)
      cases i with
      | zero =>
          simp only [List.flatten_cons, Nat.mul_zero, List.drop_zero, List.get]
          rw [← hx, List.take_left]
      | succ n =>
          have h32 : 32 * (n + 1) = x.length + 32 * n := by rw [hx]; ring
          simp only [List.flatten_cons, List.get]
          rw [h32, List.drop_append]
          exact ih (fun y hy => hlen y (List.mem_cons_of_mem _ hy)) n (by simpa using hi)

theorem flatten_length_32 (h : List (List Nat)) (hlen : ∀ x ∈ h, x.length = 32) :
    h.flatten.length = 32 * h.length := by
  induction h with
  | nil => simp
  | cons x xs ih =>
      simp only [List.flatten_cons, List.length_append, List.length_cons]
      rw [hlen x (List.mem_cons_self _ _), ih (fun y hy => hlen y (List.mem_cons_of_mem _ hy))]
      ring

/-- C7: every persisted hash-node value is the 2-byte big-endian
branch-children mask, then the 2-byte big-endian children mask, then the
32-byte child hashes in order; the storage variant's database key is the
account hash followed by the 8-byte big-endian incarnation followed by the
nibble prefix. -/
theorem persisted_hash_node_encoding
    (bc c : Nat) (h : List (List Nat)) (hlen : ∀ x ∈ h, x.length = 32)
    (a : List Nat) (inc : Nat) (pfx : List Nat) (ha : a.length = 32) :
    (encodeHashNodeValue bc c h).length = 4 + 32 * h.length
    ∧ (encodeHashNodeValue bc c h).take 2 = putUint16BE bc
    ∧ 256 * (bc % 65536 / 256) + bc % 256 = bc % 65536
    ∧ ((encodeHashNodeValue bc c h).drop 2).take 2 = putUint16BE c
    ∧ (∀ i (hi : i < h.length),
        (((encodeHashNodeValue bc c h).drop (4 + 32 * i)).take 32) = h.get ⟨i, hi⟩)
    ∧ (generateCompositeStoragePrefix a inc pfx).take 32 = a
    ∧ ((generateCompositeStoragePrefix a inc pfx).drop 32).take 8 = putUint64BE inc
    ∧ (generateCompositeStoragePrefix a inc pfx).drop 40 = pfx := by
  refine ⟨?_, ?_, ?_, ?_, ?_, ?_, ?_, ?_⟩
  · simp only [encodeHashNodeValue, List.length_append, putUint16BE_length,
      flatten_length_32 h hlen]
  · simp [encodeHashNodeValue, putUint16BE]
  · omega
  · simp [encodeHashNodeValue, putUint16BE]
  · intro i hi
    have : encodeHashNodeValue bc c h =
        (putUint16BE bc ++ putUint16BE c) ++ h.flatten := by
      simp [encodeHashNodeValue]
    rw [this]
    have h4 : (putUint16BE bc ++ putUint16BE c).length = 4 := rfl
    have : 4 + 32 * i = (putUint16BE bc ++ putUint16BE c).length + 32 * i := by rw [h4]
    rw [this, List.drop_append]
    exact flatten_segment h hlen i hi
  · rw [generateCompositeStoragePrefix, ← ha, List.append_assoc, List.take_left]
  · rw [generateCompositeStoragePrefix, ← ha, List.append_assoc, List.drop_left]
    rw [show (8 : Nat) = (putUint64BE inc).length from putUint64BE_length inc ▸ rfl,
      List.take_left]
  · have h40 : (40 : Nat) = (a ++ putUint64BE inc).length := by
      simp [ha, putUint64BE_length]
    rw [generateCompositeStoragePrefix, h40, List.drop_left]

theorem persisted_hash_node_encoding_witness :
    (∀ x ∈ [List.replicate 32 7], x.length = 32) ∧ (List.replicate 32 (9 : Nat)).length = 32
    ∧ (encodeHashNodeValue 3 5 [List.replicate 32 7]).take 2 = putUint16BE 3
    ∧ (generateCompositeStoragePrefix (List.replicate 32 9) 2 [1, 2]).drop 40 = [1, 2] := by
  have h := persisted_hash_node_encoding 3 5 [List.replicate 32 7] (by decide)
    (List.replicate 32 9) 2 [1, 2] (by decide)
  exact ⟨by decide, by decide, h.2.1, h.2.2.2.2.2.2.2⟩

/-- C8 counterexample: the claim that the 16-bit masks are encoded
little-endian fails on the code: for branch mask 1 and children mask 2 the
code writes `[0, 1, 0, 2]` (big-endian), not `[1, 0, 2, 0]`. -/
theorem mask_encoding_little_endian_counterexample :
    encodeHashNodeValue 1 2 [] = [0, 1, 0, 2]
    ∧ encodeHashNodeValueLEspec 1 2 [] = [1, 0, 2, 0]
    ∧ encodeHashNodeValue 1 2 [] ≠ encodeHashNodeValueLEspec 1 2 [] := by decide

/-- C8 amended: the numeric encoding of the 16-bit branch-children and
children masks in persisted hash-node values is big-endian (most significant
byte first), and hash values are fixed 32-byte (the value is exactly 4 bytes
of masks plus 32 bytes per child hash). -/
theorem mask_encoding_big_endian (bc c : Nat) (h : List (List Nat))
    (hlen : ∀ x ∈ h, x.length = 32) :
    (encodeHashNodeValue bc c h).take 4 = putUint16BE bc ++ putUint16BE c
    ∧ putUint16BE bc = [bc % 65536 / 256, bc % 256]
    ∧ 256 * (bc % 65536 / 256) + bc % 256 = bc % 65536
    ∧ (encodeHashNodeValue bc c h).length = 4 + 32 * h.length := by
  refine ⟨?_, rfl, by omega, ?_⟩
  · simp [encodeHashNodeValue, putUint16BE]
  · simp only [encodeHashNodeValue, List.length_append, putUint16BE_length,
      flatten_length_32 h hlen]

theorem mask_encoding_big_endian_witness :
    (∀ x ∈ ([] : List (List Nat)), x.length = 32)
    ∧ (encodeHashNodeValue 300 7 []).take 4 = putUint16BE 300 ++ putUint16BE 7 :=
  ⟨by decide, (mask_encoding_big_endian 300 7 [] (by decide)).1⟩

/-! ## HashPromoter.Promote (stage_interhashes.go lines 316-393)

`Promote(logPrefix, s, from, to, storage, load, deleted)` scans the
change-set bucket through `etl.Transform` starting at the key
`EncodeBlockNumber(from+1)` (no end key is passed), with
`BufferType: etl.SortableOldestAppearedBuffer` and the load function wrapped
in `OldestAppearedLoad`.  The change-set bucket is ordered ascending by block
number.  For the account variant (`storage == false`) the extract function
additionally records accounts that self-destructed (non-empty previous value,
absent from current plain state) and, after the transform, deletes every
`IntermediateHashOfStorageBucket` entry whose key starts with such an
account's hashed key.  The `deleted` map parameter is never read or written
by the body (it uses a fresh local `deletedAccounts` map instead), and the
function returns only an error. -/

/-- One decoded change-set record: `(blockNumber, logicalKey, previousValue)`
(spec §6, ChangeSet record format). -/
structure ChangeRecord where
  blockNum : Nat
  key : List Nat
  prevVal : List Nat
deriving DecidableEq

/-- Modelled from the spec: the record range scanned by `etl.Transform` with
`ExtractStartKey = EncodeBlockNumber(from+1)` and no end key — every record
of the (block-ascending) change-set bucket whose block number is at least
`from + 1`. -/
def scannedRecords (recs : List ChangeRecord) (frm : Nat) : List ChangeRecord :=
  recs.filter (fun r => frm + 1 ≤ r.blockNum)

/-- Modelled from the spec: `etl.SortableOldestAppearedBuffer` combined with
`OldestAppearedLoad` — for each distinct key, only its first appearance in
extraction order survives, and the load function is invoked exactly once per
distinct key.  The second pair component is the block number of the record
that produced the entry (provenance of the kept occurrence; the collector in
the source receives only the key, the collected value being nil). -/
def oldestAppearedAux (seen : List (List Nat)) :
    List (List Nat × Nat) → List (List Nat × Nat)
  | [] => []
  | (k, b) :: rest =>
      if k ∈ seen then oldestAppearedAux seen rest
      else (k, b) :: oldestAppearedAux (k :: seen) rest

def oldestAppeared (ps : List (List Nat × Nat)) : List (List Nat × Nat) :=
  oldestAppearedAux [] ps

/-- The self-destructed account set accumulated by the account-variant
extract function: records whose current plain-state value is empty/absent
while the change-set previous value is non-empty; the tracked key is the
transformed (trie-form) key. -/
def selfDestructedAccounts (plainState : List Nat → List Nat)
    (transform : List Nat → List Nat) (scanned : List ChangeRecord) : List (List Nat) :=
  (scanned.filter (fun r => plainState r.key = [] ∧ r.prevVal ≠ [])).map
    (fun r => transform r.key)

/-- What `HashPromoter.Promote` produces, observably: the sequence of
collector (load-function) invocations, the `IntermediateHashOfStorageBucket`
contents after the self-destruct cleanup, and the caller's `deleted` map
after the call. -/
structure PromoteResult where
  collected : List (List Nat × Nat)
  ihStorage : List (List Nat × List Nat)
  deletedParam : List (List Nat)
deriving DecidableEq

/-- `HashPromoter.Promote` (stage_interhashes.go lines 316-393).
`plainState` models `p.db.Get(dbutils.PlainStateBucket, ·)` with `[]` for an
absent key (the source treats `ErrKeyNotFound` and an empty value alike:
`len(value) == 0`); `transform` models `transformPlainStateKey` (hashing of
the plain key, defined outside the provided sources); `recs` is the
change-set bucket in ascending block order; `ihStorage` is the
`IntermediateHashOfStorageBucket` contents.  `db.Walk(bucket, k, 8*len(k), ...)`
visits exactly the keys whose first `len(k)` bytes equal `k`, and each
visited key is deleted. -/
def promote (plainState : List Nat → List Nat) (transform : List Nat → List Nat)
    (recs : List ChangeRecord) (frm toBlk : Nat) (storage : Bool)
    (ihStorage : List (List Nat × List Nat)) (deleted : List (List Nat)) : PromoteResult :=
  let scanned := scannedRecords recs frm
  let collected := oldestAppeared (scanned.map (fun r => (transform r.key, r.blockNum)))
  if storage then
    { collected := collected, ihStorage := ihStorage, deletedParam := deleted }
  else
    let dead := selfDestructedAccounts plainState transform scanned
    { collected := collected,
      ihStorage := ihStorage.filter (fun kv => dead.all (fun d => !(d.isPrefixOf kv.1))),
      deletedParam := deleted }

theorem oldestAppearedAux_mem (seen : List (List Nat)) (ps : List (List Nat × Nat))
    (k : List Nat) :
    k ∈ (oldestAppearedAux seen ps).map Prod.fst ↔
      (k ∉ seen ∧ k ∈ ps.map Prod.fst) := by
  induction ps generalizing seen with
  | nil => simp [oldestAppearedAux]
  | cons p rest ih =>
      obtain ⟨k', b⟩ := p
      by_cases hks : k' ∈ seen
      · simp only [oldestAppearedAux, if_pos hks, ih seen, List.map_cons, List.mem_cons]
        constructor
        · rintro ⟨h1, h2⟩; exact ⟨h1, Or.inr h2⟩
        · rintro ⟨h1, h2 | h2⟩
          · exact absurd (h2 ▸ hks) h1
          · exact ⟨h1, h2⟩
      · simp only [oldestAppearedAux, if_neg hks, List.map_cons, List.mem_cons,
          ih (k' :: seen)]
        constructor
        · rintro (rfl | ⟨h1, h2⟩)
          · exact ⟨hks, Or.inl rfl⟩
          · exact ⟨fun hk => h1 (Or.inr hk), Or.inr h2⟩
        · rintro ⟨h1, rfl | h2⟩
          · exact Or.inl rfl
          · by_cases hkk : k = k'
            · exact Or.inl hkk
            · exact Or.inr ⟨by simp [hkk, h1], h2⟩

theorem oldestAppearedAux_nodup (seen : List (List Nat)) (ps : List (List Nat × Nat)) :
    ((oldestAppearedAux seen ps).map Prod.fst).Nodup := by
  induction ps generalizing seen with
  | nil => simp [oldestAppearedAux]
  | cons p rest ih =>
      obtain ⟨k', b⟩ := p
      by_cases hks : k' ∈ seen
      · simpa [oldestAppearedAux, if_pos hks] using ih seen
      · simp only [oldestAppearedAux, if_neg hks, List.map_cons, List.nodup_cons]
        refine ⟨fun hmem => ?_, ih (k' :: seen)⟩
        have := (oldestAppearedAux_mem (k' :: seen) rest k').mp hmem
        exact this.1 (List.mem_cons_self _ _)

theorem oldestAppearedAux_oldest (seen : List (List Nat)) (ps : List (List Nat × Nat))
    (hsorted : ps.Pairwise (fun p q => p.2 ≤ q.2)) :
    ∀ pr ∈ oldestAppearedAux seen ps,
      pr.1 ∉ seen ∧ pr ∈ ps ∧ ∀ q ∈ ps, q.1 = pr.1 → pr.2 ≤ q.2 := by
  induction ps generalizing seen with
  | nil => simp [oldestAppearedAux]
  | cons p rest ih =>
      obtain ⟨k', b⟩ := p
      obtain ⟨hhead, htail⟩ := List.pairwise_cons.mp hsorted
      intro pr hpr
      by_cases hks : k' ∈ seen
      · rw [oldestAppearedAux, if_pos hks] at hpr
        obtain ⟨h1, h2, h3⟩ := ih seen htail pr hpr
        refine ⟨h1, List.mem_cons_of_mem _ h2, ?_⟩
        intro q hq hq1
        rcases List.mem_cons.mp hq with rfl | hq'
        · exact absurd (hq1 ▸ hks) h1
        · exact h3 q hq' hq1
      · rw [oldestAppearedAux, if_neg hks] at hpr
        rcases List.mem_cons.mp hpr with rfl | hpr'
        · refine ⟨hks, List.mem_cons_self _ _, ?_⟩
          intro q hq _
          rcases List.mem_cons.mp hq with rfl | hq'
          · exact le_refl _
          · exact hhead q hq'
        · obtain ⟨h1, h2, h3⟩ := ih (k' :: seen) htail pr hpr'
          refine ⟨fun hk => h1 (List.mem_cons_of_mem _ hk), List.mem_cons_of_mem _ h2, ?_⟩
          intro q hq hq1
          rcases List.mem_cons.mp hq with rfl | hq'
          · exact absurd (hq1 ▸ List.mem_cons_self k' seen) h1
          · exact h3 q hq' hq1

theorem promote_collected (plainState transform : List Nat → List Nat)
    (recs : List ChangeRecord) (frm toBlk : Nat) (storage : Bool)
    (ihSt : List (List Nat × List Nat)) (deleted : List (List Nat)) :
    (promote plainState transform recs frm toBlk storage ihSt deleted).collected =
      oldestAppeared ((scannedRecords recs frm).map
        (fun r => (transform r.key, r.blockNum))) := by
  cases storage <;> rfl

/-- C1: over the scanned change-set range, each distinct transformed key is
passed to the collector exactly once (the collected key list is
duplicate-free and covers exactly the transformed keys of the scanned
records), and the occurrence kept is the one from the earliest block of the
scanned range in which that key appears. -/
theorem promote_collects_each_key_once_oldest_first
    (plainState transform : List Nat → List Nat) (recs : List ChangeRecord)
    (frm toBlk : Nat) (storage : Bool) (ihSt : List (List Nat × List Nat))
    (deleted : List (List Nat))
    (hsorted : recs.Pairwise (fun a b => a.blockNum ≤ b.blockNum)) :
    (((promote plainState transform recs frm toBlk storage ihSt deleted).collected).map
        Prod.fst).Nodup
    ∧ (∀ k, k ∈ ((promote plainState transform recs frm toBlk storage ihSt
          deleted).collected).map Prod.fst ↔
        k ∈ (scannedRecords recs frm).map (fun r => transform r.key))
    ∧ ∀ p ∈ (promote plainState transform recs frm toBlk storage ihSt deleted).collected,
        ∃ r ∈ scannedRecords recs frm,
          transform r.key = p.1 ∧ r.blockNum = p.2
          ∧ ∀ r' ∈ scannedRecords recs frm, transform r'.key = p.1 → p.2 ≤ r'.blockNum := by
  rw [promote_collected]
  set scanned := scannedRecords recs frm with hscanned
  have hps : (scanned.map (fun r => (transform r.key, r.blockNum))).Pairwise
      (fun p q => p.2 ≤ q.2) := by
    refine List.Pairwise.map _ (fun a b h => h) ?_
    exact (hsorted.filter _)
  refine ⟨oldestAppearedAux_nodup [] _, fun k => ?_, fun p hp => ?_⟩
  · rw [oldestAppeared, oldestAppearedAux_mem]
    simp [List.map_map, Function.comp]
  · obtain ⟨_, hmem, hmin⟩ := oldestAppearedAux_oldest [] _ hps p hp
    obtain ⟨r, hr, hrp⟩ := List.mem_map.mp hmem
    refine ⟨r, hr, ?_, ?_, ?_⟩
    · rw [← hrp]
    · rw [← hrp]
    · intro r' hr' hkey
      exact hmin (transform r'.key, r'.blockNum) (List.mem_map_of_mem _ hr') hkey

theorem promote_collects_each_key_once_oldest_first_witness :
    (List.Pairwise (fun a b => a.blockNum ≤ b.blockNum)
      [ChangeRecord.mk 1 [3] [], ChangeRecord.mk 2 [3] []])
    ∧ (((promote (fun _ => []) id [ChangeRecord.mk 1 [3] [], ChangeRecord.mk 2 [3] []]
          0 2 true [] []).collected).map Prod.fst).Nodup
    ∧ (promote (fun _ => []) id [ChangeRecord.mk 1 [3] [], ChangeRecord.mk 2 [3] []]
          0 2 true [] []).collected = [([3], 1)] :=
  ⟨by decide,
   (promote_collects_each_key_once_oldest_first (fun _ => []) id
      [ChangeRecord.mk 1 [3] [], ChangeRecord.mk 2 [3] []] 0 2 true [] []
      (by decide)).1,
   by decide⟩

theorem oldestAppearedAux_subset (seen : List (List Nat)) (ps : List (List Nat × Nat)) :
    ∀ pr ∈ oldestAppearedAux seen ps, pr ∈ ps := by
  induction ps generalizing seen with
  | nil => simp [oldestAppearedAux]
  | cons p rest ih =>
      obtain ⟨k', b⟩ := p
      intro pr hpr
      by_cases hks : k' ∈ seen
      · rw [oldestAppearedAux, if_pos hks] at hpr
        exact List.mem_cons_of_mem _ (ih seen pr hpr)
      · rw [oldestAppearedAux, if_neg hks] at hpr
        rcases List.mem_cons.mp hpr with rfl | hpr'
        · exact List.mem_cons_self _ _
        · exact List.mem_cons_of_mem _ (ih (k' :: seen) pr hpr')

/-- C3 counterexample: `Promote(from := 0, to := 1)` also scans change-set
records beyond block `to`: with the change-set bucket holding a single
record at block 2, that record's key is collected, although block 2 is not
in the half-open range (0, 1]. -/
theorem promote_scan_range_counterexample :
    (promote (fun _ => []) id [ChangeRecord.mk 2 [5] []] 0 1 true [] []).collected
      = [([5], 2)]
    ∧ ¬((ChangeRecord.mk 2 [5] []).blockNum ≤ 1) := by
  exact ⟨by decide, by decide⟩

/-- C3 amended: `HashPromoter.Promote(from, to)` starts its change-set scan
at block from+1 but runs to the end of the change-set bucket (no end key is
passed to the transform), so it scans every record with block number > from.
Provided the change-set bucket holds no record with block number above `to`
(as is the case for the caller, where `to` is the execution progress), every
collected key comes from a record whose block number lies in (from, to], so
the retain list contains no prefix for a key untouched in (from, to]. -/
theorem promote_scan_minimality
    (plainState transform : List Nat → List Nat) (recs : List ChangeRecord)
    (frm toBlk : Nat) (storage : Bool) (ihSt : List (List Nat × List Nat))
    (deleted : List (List Nat))
    (hto : ∀ r ∈ recs, r.blockNum ≤ toBlk) :
    ∀ p ∈ (promote plainState transform recs frm toBlk storage ihSt deleted).collected,
      ∃ r ∈ recs, frm < r.blockNum ∧ r.blockNum ≤ toBlk ∧ transform r.key = p.1 := by
  rw [promote_collected]
  intro p hp
  have hmem := oldestAppearedAux_subset [] _ p hp
  obtain ⟨r, hr, hrp⟩ := List.mem_map.mp hmem
  have hrrecs := List.mem_filter.mp hr
  refine ⟨r, hrrecs.1, ?_, hto r hrrecs.1, by rw [← hrp]⟩
  have := hrrecs.2
  simp only [decide_eq_true_eq] at this
  omega

theorem promote_scan_minimality_witness :
    (∀ r ∈ [ChangeRecord.mk 1 [4] []], r.blockNum ≤ 1)
    ∧ ∀ p ∈ (promote (fun _ => []) id [ChangeRecord.mk 1 [4] []] 0 1 true [] []).collected,
        ∃ r ∈ [ChangeRecord.mk 1 [4] []],
          0 < r.blockNum ∧ r.blockNum ≤ 1 ∧ id r.key = p.1 :=
  ⟨by decide,
   promote_scan_minimality (fun _ => []) id [ChangeRecord.mk 1 [4] []] 0 1 true [] []
     (by decide)⟩

theorem promote_false_ihStorage (plainState transform : List Nat → List Nat)
    (recs : List ChangeRecord) (frm toBlk : Nat) (ihSt : List (List Nat × List Nat))
    (deleted : List (List Nat)) :
    (promote plainState transform recs frm toBlk false ihSt deleted).ihStorage =
      ihSt.filter (fun kv =>
        (selfDestructedAccounts plainState transform (scannedRecords recs frm)).all
          (fun d => !(d.isPrefixOf kv.1))) := rfl

/-- C4 amended: for every account change-set entry scanned by Promote with
storage=false whose previous value is non-empty while the account is absent
from current plain state, the account's transformed key is tracked in the
internal self-destructed set and every IntermediateHashOfStorageBucket entry
keyed under that hashed key is deleted.  (The set is, however, not returned
to the caller: it is consumed inside Promote and discarded — see the
counterexample.) -/
theorem promote_self_destruct_cleanup
    (plainState transform : List Nat → List Nat) (recs : List ChangeRecord)
    (frm toBlk : Nat) (ihSt : List (List Nat × List Nat)) (deleted : List (List Nat))
    (r : ChangeRecord) (hr : r ∈ scannedRecords recs frm)
    (habsent : plainState r.key = []) (hprev : r.prevVal ≠ []) :
    transform r.key ∈ selfDestructedAccounts plainState transform (scannedRecords recs frm)
    ∧ ∀ kv ∈ (promote plainState transform recs frm toBlk false ihSt deleted).ihStorage,
        (transform r.key).isPrefixOf kv.1 = false := by
  have hdead : transform r.key ∈
      selfDestructedAccounts plainState transform (scannedRecords recs frm) :=
    List.mem_map_of_mem _ (List.mem_filter.mpr ⟨hr, by simp [habsent, hprev]⟩)
  refine ⟨hdead, fun kv hkv => ?_⟩
  rw [promote_false_ihStorage] at hkv
  have hall := (List.mem_filter.mp hkv).2
  have := (List.all_eq_true.mp hall) _ hdead
  simpa using this

theorem promote_self_destruct_cleanup_witness :
    (ChangeRecord.mk 1 [7] [9] ∈ scannedRecords [ChangeRecord.mk 1 [7] [9]] 0)
    ∧ ((fun _ => ([] : List Nat)) (ChangeRecord.mk 1 [7] [9]).key = [])
    ∧ ((ChangeRecord.mk 1 [7] [9]).prevVal ≠ [])
    ∧ ∀ kv ∈ (promote (fun _ => []) id [ChangeRecord.mk 1 [7] [9]] 0 1 false
        [([7, 0], [1])] []).ihStorage,
        (id (ChangeRecord.mk 1 [7] [9]).key).isPrefixOf kv.1 = false :=
  ⟨by decide, rfl, by decide,
   (promote_self_destruct_cleanup (fun _ => []) id [ChangeRecord.mk 1 [7] [9]] 0 1
      [([7, 0], [1])] [] (ChangeRecord.mk 1 [7] [9]) (by decide) rfl (by decide)).2⟩

/-- C4 counterexample: Promote does not hand the self-destructed set back to
its caller.  With one self-destructing account change (previous value
non-empty, account absent from plain state) and an empty `deleted` map
passed in, the internal set is non-empty and the orphaned storage hash-node
is deleted, yet the caller's map after the call is still empty — Promote
returns only an error value and discards the set. -/
theorem promote_returns_deleted_set_counterexample :
    (promote (fun _ => []) id [ChangeRecord.mk 1 [7] [9]] 0 1 false
        [([7, 0], [1])] []).deletedParam = []
    ∧ selfDestructedAccounts (fun _ => []) id
        (scannedRecords [ChangeRecord.mk 1 [7] [9]] 0) = [[7]]
    ∧ (promote (fun _ => []) id [ChangeRecord.mk 1 [7] [9]] 0 1 false
        [([7, 0], [1])] []).ihStorage = [] := by
  exact ⟨rfl, by decide, by decide⟩

/-- C10: `HashPromoter.Promote` never reads or modifies its `deleted` map
parameter: the collector calls and database effects are identical for any
two values of the argument, and the passed map is returned unchanged (the
self-destructed accounts are accumulated in a fresh internal map instead). -/
theorem promote_deleted_param_noninterference
    (plainState transform : List Nat → List Nat) (recs : List ChangeRecord)
    (frm toBlk : Nat) (storage : Bool) (ihSt : List (List Nat × List Nat))
    (d1 d2 d : List (List Nat)) :
    (promote plainState transform recs frm toBlk storage ihSt d1).collected =
      (promote plainState transform recs frm toBlk storage ihSt d2).collected
    ∧ (promote plainState transform recs frm toBlk storage ihSt d1).ihStorage =
      (promote plainState transform recs frm toBlk storage ihSt d2).ihStorage
    ∧ (promote plainState transform recs frm toBlk storage ihSt d).deletedParam = d := by
  cases storage <;> exact ⟨rfl, rfl, rfl⟩

/-! ## Stage integration (stage_interhashes.go lines 25-82, 84-298, 439-663)

The stage entry point `SpawnIntermediateHashesStage` and the two inner
computations are embedded at the level of their control flow and observable
effects.  Calls into external collaborators — `s.ExecutionAt` (stage-progress
store), `db.Begin`, `rawdb.ReadCanonicalHash`/`ReadHeader` (header store),
`HashPromoter.Promote` and the `trie.FlatDBTrieLoader` root computation
(`trie` package, outside the provided sources) — are oracles: their results
are inputs of the embedding.  Every database mutation and the
stage-progress update `s.DoneAndUpdate` appear as events; the third result
component is the persisted stage progress after the call (`DoneAndUpdate`
persists `to`; on every other path the progress is untouched). -/

/-- Observable stage events, in program order. -/
inductive StageEv where
  /-- Clearing of the two intermediate-hash buckets at the start of
  `RegenerateIntermediateHashes`. -/
  | clearIH : StageEv
  /-- The two `HashPromoter.Promote` passes of `incrementIntermediateHashes`
  (including their self-destruct cleanup deletes). -/
  | promoteRun : StageEv
  /-- A `trie.FlatDBTrieLoader` root computation. -/
  | trieCalc : StageEv
  /-- Persisting the collected hash-node writes/deletes. -/
  | nodeWrites : StageEv
  /-- `s.DoneAndUpdate(tx, to)`: persist stage progress `to`. -/
  | doneAndUpdate (toBlk : Nat) : StageEv
  /-- `tx.Commit()` for an internally opened transaction. -/
  | txCommit : StageEv
deriving DecidableEq

/-- `RegenerateIntermediateHashes` (stage_interhashes.go lines 84-298),
cache and non-cache branches alike: clear the IH buckets, run the loader
(`CalcTrieRoot`/`CalcTrieRootOnCache2`), compare against the expected root
when `checkRoot` is set, then persist the collected writes.  `loader` is the
oracle for the root computation: `Except.error` covers storage, decode and
cancellation failures surfaced by the walk. -/
def regenerateIntermediateHashes (checkRoot : Bool) (expectedRoot : Nat)
    (loader : Except String Nat) : Except String Unit × List StageEv :=
  match loader with
  | .error e => (.error e, [.clearIH, .trieCalc])
  | .ok h =>
      if checkRoot && !(h == expectedRoot) then
        (.error "wrong trie root", [.clearIH, .trieCalc])
      else
        (.ok (), [.clearIH, .trieCalc, .nodeWrites])

/-- `incrementIntermediateHashes` (stage_interhashes.go lines 439-663): the
two Promote passes, then the loader pass over the retain list, the root
check when `checkRoot` is set, then persisting the collected writes.
`promoteRes` is the oracle for the two `p.Promote` calls. -/
def incrementIntermediateHashes (promoteRes : Except String Unit) (checkRoot : Bool)
    (expectedRoot : Nat) (loader : Except String Nat) :
    Except String Unit × List StageEv :=
  match promoteRes with
  | .error e => (.error e, [.promoteRun])
  | .ok _ =>
      match loader with
      | .error e => (.error e, [.promoteRun, .trieCalc])
      | .ok h =>
          if checkRoot && !(h == expectedRoot) then
            (.error "wrong trie root", [.promoteRun, .trieCalc])
          else
            (.ok (), [.promoteRun, .trieCalc, .nodeWrites])

/-- The inputs of `SpawnIntermediateHashesStage`: the saved stage progress
`s.BlockNumber`, the oracles for `s.ExecutionAt(db)`, `db.Begin`, the header
root read, the Promote passes and the loader, and the `checkRoot` flag. -/
structure SpawnInput where
  progress : Nat
  execAt : Except String Nat
  txBegin : Except String Unit
  headerRoot : Except String Nat
  checkRoot : Bool
  promoteRes : Except String Unit
  loader : Except String Nat

/-- `SpawnIntermediateHashesStage` (stage_interhashes.go lines 25-82):
read the execution point; when the saved progress already equals it, mark
done and return nil touching nothing; otherwise open/adopt a transaction,
read the expected root from the canonical header, regenerate (progress 0) or
increment, and only on success call `s.DoneAndUpdate(tx, to)` and commit.
Returns (result, events, persisted stage progress after the call). -/
def spawnIntermediateHashesStage (inp : SpawnInput) :
    Except String Unit × List StageEv × Nat :=
  match inp.execAt with
  | .error e => (.error e, [], inp.progress)
  | .ok toBlk =>
      if inp.progress == toBlk then
        (.ok (), [], inp.progress)
      else
        match inp.txBegin with
        | .error e => (.error e, [], inp.progress)
        | .ok _ =>
            match inp.headerRoot with
            | .error e => (.error e, [], inp.progress)
            | .ok expected =>
                match (if inp.progress == 0 then
                        regenerateIntermediateHashes inp.checkRoot expected inp.loader
                      else
                        incrementIntermediateHashes inp.promoteRes inp.checkRoot expected
                          inp.loader) with
                | (.error e, evs) => (.error e, evs, inp.progress)
                | (.ok _, evs) =>
                    (.ok (), evs ++ [.doneAndUpdate toBlk, .txCommit], toBlk)

/-- C5: whenever root checking is enabled and the freshly computed root
differs from the expected root, `RegenerateIntermediateHashes` and
`incrementIntermediateHashes` return an error, `SpawnIntermediateHashesStage`
propagates it, the stage-progress update `DoneAndUpdate` is never reached,
and the persisted stage progress is left unchanged. -/
theorem root_mismatch_aborts_stage (inp : SpawnInput) (toBlk expected h : Nat)
    (hexec : inp.execAt = .ok toBlk) (hneq : inp.progress ≠ toBlk)
    (htx : inp.txBegin = .ok ()) (hheader : inp.headerRoot = .ok expected)
    (hcheck : inp.checkRoot = true) (hload : inp.loader = .ok h)
    (hpromote : inp.promoteRes = .ok ()) (hmismatch : h ≠ expected) :
    (regenerateIntermediateHashes inp.checkRoot expected inp.loader).1 =
      .error "wrong trie root"
    ∧ (incrementIntermediateHashes inp.promoteRes inp.checkRoot expected inp.loader).1 =
      .error "wrong trie root"
    ∧ (spawnIntermediateHashesStage inp).1 = .error "wrong trie root"
    ∧ (∀ n, StageEv.doneAndUpdate n ∉ (spawnIntermediateHashesStage inp).2.1)
    ∧ (spawnIntermediateHashesStage inp).2.2 = inp.progress := by
  have hcond : (inp.checkRoot && !(h == expected)) = true := by
    simp [hcheck, hmismatch]
  have hreg : regenerateIntermediateHashes inp.checkRoot expected inp.loader =
      (.error "wrong trie root", [.clearIH, .trieCalc]) := by
    rw [hload, regenerateIntermediateHashes, if_pos hcond]
  have hinc : incrementIntermediateHashes inp.promoteRes inp.checkRoot expected
      inp.loader = (.error "wrong trie root", [.promoteRun, .trieCalc]) := by
    rw [hpromote, hload]
    simp only [incrementIntermediateHashes, hcond, if_true]
  have hspawn : spawnIntermediateHashesStage inp =
      (.error "wrong trie root",
        (if inp.progress == 0 then [StageEv.clearIH, StageEv.trieCalc]
         else [StageEv.promoteRun, StageEv.trieCalc]), inp.progress) := by
    have hne : (inp.progress == toBlk) = false := by simpa using hneq
    simp only [spawnIntermediateHashesStage, hexec, htx, hheader, hne,
      Bool.false_eq_true, if_false]
    by_cases hp : inp.progress = 0
    · have hp' : (inp.progress == 0) = true := by simpa using hp
      simp only [hp', if_true, hreg]
    · have hp' : (inp.progress == 0) = false := by simpa using hp
      simp only [hp', Bool.false_eq_true, if_false, hinc]
  refine ⟨by rw [hreg], by rw [hinc], by rw [hspawn], ?_, by rw [hspawn]⟩
  intro n
  rw [hspawn]
  by_cases hp : (inp.progress == 0) = true <;> simp [hp]

theorem root_mismatch_aborts_stage_witness :
    (spawnIntermediateHashesStage
      ⟨5, .ok 9, .ok (), .ok 11, true, .ok (), .ok 12⟩).1 = .error "wrong trie root"
    ∧ (spawnIntermediateHashesStage
      ⟨5, .ok 9, .ok (), .ok 11, true, .ok (), .ok 12⟩).2.2 = 5 :=
  have h := root_mismatch_aborts_stage ⟨5, .ok 9, .ok (), .ok 11, true, .ok (), .ok 12⟩
    9 11 12 rfl (by decide) rfl rfl rfl rfl rfl (by decide)
  ⟨h.2.2.1, h.2.2.2.2⟩

/-- C6: calling the stage again when the saved progress already equals the
execution target is a committed no-op: `SpawnIntermediateHashesStage`
returns nil having emitted no event at all — no trie computation, no
database write, no progress change — so the stored root and all persisted
hash-nodes are byte-identical. -/
theorem stage_noop_when_progress_equals_target (inp : SpawnInput) (toBlk : Nat)
    (hexec : inp.execAt = .ok toBlk) (heq : inp.progress = toBlk) :
    spawnIntermediateHashesStage inp = (.ok (), [], inp.progress) := by
  have ht : (inp.progress == toBlk) = true := by simpa using heq
  simp only [spawnIntermediateHashesStage, hexec, ht, if_true]

theorem stage_noop_when_progress_equals_target_witness :
    spawnIntermediateHashesStage
      ⟨7, .ok 7, .ok (), .ok 11, true, .ok (), .ok 12⟩ = (.ok (), [], 7) :=
  stage_noop_when_progress_equals_target
    ⟨7, .ok 7, .ok (), .ok 11, true, .ok (), .ok 12⟩ 7 rfl rfl

/-! ## StateCache trie enumerations (turbo/shards/trie_cache.go)

The per-domain B-trees (`sc.readWrites[id]`) of the base cache container are
modelled as lists of items in the tree's ascending order; the btree's
`Ascend` is iteration over the list and `AscendGreaterOrEqual(seek, step)` is
iteration over the items that are not `Less` than the seek item.  `bytes`
fields that only ever participate in equality and ordering (`common.Hash`:
`addrHash`, `locHash`) are modelled as `Nat`; 32-byte arrays of equal length
compare identically either way.  The `sequence`/`queuePos` fields (eviction
bookkeeping, untouched by the embedded functions) are omitted. -/

/-- Modelled from the spec: the CacheItem flag bits {Absent, Deleted,
Modified} of the base cache (state_cache.go is outside the provided
sources); the embedded code only tests them with `HasFlag`, so all that
matters is that they are distinct bits of the 16-bit flag mask. -/
def AbsentFlag : Nat := 1

def ModifiedFlag : Nat := 2

def DeletedFlag : Nat := 4

/-- `HasFlag(flag)`: `flags & flag != 0`. -/
def hasFlag (flags flag : Nat) : Bool := (flags &&& flag) != 0

/-- An item survives a live enumeration iff it has neither the Absent nor
the Deleted flag (`it.HasFlag(AbsentFlag) || it.HasFlag(DeletedFlag)` is the
skip condition used throughout trie_cache.go). -/
def isLiveFlags (flags : Nat) : Bool :=
  !(hasFlag flags AbsentFlag || hasFlag flags DeletedFlag)

/-- `bytes.Compare`: lexicographic comparison, a strict prefix sorting
before its extensions. -/
def compareBytes : List Nat → List Nat → Ordering
  | [], [] => .eq
  | [], _ :: _ => .lt
  | _ :: _, [] => .gt
  | a :: as, b :: bs =>
      if a < b then .lt else if b < a then .gt else compareBytes as bs

/-- `AccountHashItem` (trie_cache.go lines 26-35). -/
structure AccountHashItem where
  flags : Nat
  bits : Nat
  branchChildren : Nat
  children : Nat
  hashes : List Nat
  addrHashPrefix : List Nat
deriving DecidableEq

/-- `AccountHashItem.Less` (trie_cache.go lines 48-65): by `addrHashPrefix`
bytes, then by `bits`. -/
def ahiLess (x y : AccountHashItem) : Bool :=
  match compareBytes x.addrHashPrefix y.addrHashPrefix with
  | .lt => true
  | .gt => false
  | .eq => decide (x.bits < y.bits)

/-- `StorageHashItem` (trie_cache.go lines 93-104). -/
structure StorageHashItem where
  flags : Nat
  bits : Nat
  branchChildren : Nat
  children : Nat
  addrHash : Nat
  incarnation : Nat
  hashes : List Nat
  locHashPrefix : List Nat
deriving DecidableEq

/-- `StorageHashItem.Less` (trie_cache.go lines 113-127): by `addrHash`,
then `incarnation`, then `locHashPrefix` bytes, then `bits`. -/
def shiLess (x y : StorageHashItem) : Bool :=
  if x.addrHash ≠ y.addrHash then decide (x.addrHash < y.addrHash)
  else if x.incarnation ≠ y.incarnation then decide (x.incarnation < y.incarnation)
  else match compareBytes x.locHashPrefix y.locHashPrefix with
    | .lt => true
    | .gt => false
    | .eq => decide (x.bits < y.bits)

/-- Modelled from the spec: `dbutils.NextNibblesSubtree` (outside the
provided sources) — "next sibling of prefix P" (§3): truncate trailing 0xf
nibbles, then increment the last nibble; none when no sibling exists. -/
def nextNibblesRev : List Nat → Option (List Nat)
  | [] => none
  | n :: rest => if 15 ≤ n then nextNibblesRev rest else some ((n + 1) :: rest)

def nextNibblesSubtree (k : List Nat) : Option (List Nat) :=
  (nextNibblesRev k.reverse).map List.reverse

/-- The zero-valued `AccountHashItem` seek key built by `AccountHashes` and
`AccountHashesSeek` (only `addrHashPrefix` is set). -/
def mkAccountHashSeek (pfx : List Nat) : AccountHashItem :=
  ⟨0, 0, 0, 0, [], pfx⟩

/-- `AscendGreaterOrEqual`: the tree items that are not `Less` than the seek
item, in ascending order. -/
def ahiItemsGE (l : List AccountHashItem) (seek : AccountHashItem) : List AccountHashItem :=
  l.filter (fun it => !ahiLess it seek)

/-- The `step` callback of `StateCache.AccountHashes` (trie_cache.go lines
441-448): the first item at or after the seek position that has neither the
Absent nor the Deleted flag. -/
def ahiFirstLiveGE (l : List AccountHashItem) (seek : AccountHashItem) :
    Option AccountHashItem :=
  (ahiItemsGE l seek).find? (fun it => isLiveFlags it.flags)

/-- `StateCache.WalkAccountHashes` (trie_cache.go lines 375-391): ascend over
the whole account-hash tree, skipping items flagged Absent or Deleted. -/
def walkAccountHashesVisits : List AccountHashItem → List AccountHashItem
  | [] => []
  | it :: rest =>
      if isLiveFlags it.flags then it :: walkAccountHashesVisits rest
      else walkAccountHashesVisits rest

/-- The loop of `StateCache.AccountHashes` (trie_cache.go lines 436-474),
with fuel for termination (each iteration emits one item, so `l.length + 1`
iterations suffice); returns the items handed to the walker (the final
end-of-stream `walker(nil, ...)` call carries no item). -/
def accountHashesGo (l : List AccountHashItem) (pfx : List Nat) :
    Nat → List Nat → List AccountHashItem
  | 0, _ => []
  | fuel + 1, seekPfx =>
      match ahiFirstLiveGE l (mkAccountHashSeek seekPfx) with
      | none => []
      | some cur =>
          if !(pfx.isPrefixOf cur.addrHashPrefix) then []
          else
            cur :: (match nextNibblesSubtree cur.addrHashPrefix with
              | none => []
              | some s' => accountHashesGo l pfx fuel s')

def accountHashesVisits (l : List AccountHashItem) (pfx : List Nat) :
    List AccountHashItem :=
  accountHashesGo l pfx (l.length + 1) pfx

/-- `StateCache.AccountHashesSeek` (trie_cache.go lines 591-604): the first
item at or after the seek position — without any flag filtering. -/
def accountHashesSeek (l : List AccountHashItem) (pfx : List Nat) :
    Option AccountHashItem :=
  (ahiItemsGE l (mkAccountHashSeek pfx)).head?

/-- The zero-valued `StorageHashItem` seek key of `StorageHashesSeek` and
`StorageHashes` (`addrHash`, `incarnation`, `locHashPrefix` set). -/
def mkStorageHashSeek (a inc : Nat) (pfx : List Nat) : StorageHashItem :=
  ⟨0, 0, 0, 0, a, inc, [], pfx⟩

def shiItemsGE (l : List StorageHashItem) (seek : StorageHashItem) : List StorageHashItem :=
  l.filter (fun it => !shiLess it seek)

def shiFirstLiveGE (l : List StorageHashItem) (seek : StorageHashItem) :
    Option StorageHashItem :=
  (shiItemsGE l seek).find? (fun it => isLiveFlags it.flags)

/-- `StateCache.StorageHashesSeek` (trie_cache.go lines 606-628): the
callback examines only the first item at or after the seek position and
keeps it only when both the address hash and the incarnation match. -/
def storageHashesSeek (l : List StorageHashItem) (a inc : Nat) (pfx : List Nat) :
    Option StorageHashItem :=
  match (shiItemsGE l (mkStorageHashSeek a inc pfx)).head? with
  | none => none
  | some found =>
      if found.addrHash ≠ a then none
      else if found.incarnation ≠ inc then none
      else some found

/-- The loop of `StateCache.StorageHashes` (trie_cache.go lines 662-712):
visited items, with fuel as for `accountHashesGo`. -/
def storageHashesGo (l : List StorageHashItem) (a inc : Nat) :
    Nat → List Nat → List StorageHashItem
  | 0, _ => []
  | fuel + 1, seekPfx =>
      match shiFirstLiveGE l (mkStorageHashSeek a inc seekPfx) with
      | none => []
      | some cur =>
          if cur.addrHash != a || cur.incarnation != inc then []
          else
            cur :: (match nextNibblesSubtree cur.locHashPrefix with
              | none => []
              | some s' => storageHashesGo l a inc fuel s')

def storageHashesVisits (l : List StorageHashItem) (a inc : Nat) :
    List StorageHashItem :=
  storageHashesGo l a inc (l.length + 1) []

/-- `StorageItem` (the storage-slot cache item; only the fields the
embedded walks read). -/
structure StorageItem where
  flags : Nat
  addrHash : Nat
  incarnation : Nat
  locHash : Nat
  value : List Nat
deriving DecidableEq

/-- The storage-domain tree holds both `StorageItem`s and
`StorageWriteItem`s; `StateCache.WalkStorage` switches on the two cases with
identical logic on the carried item. -/
inductive StorageTreeEntry where
  | item (si : StorageItem) : StorageTreeEntry
  | writeItem (si : StorageItem) : StorageTreeEntry
deriving DecidableEq

def StorageTreeEntry.si : StorageTreeEntry → StorageItem
  | .item s => s
  | .writeItem s => s

/-- `StateCache.WalkStorage` (trie_cache.go lines 727-756), applied to the
items at or after its seek position: skip Absent/Deleted items, stop at the
first live item of another account or incarnation, visit the rest. -/
def walkStorageVisits (a inc : Nat) : List StorageTreeEntry → List StorageItem
  | [] => []
  | e :: rest =>
      if !isLiveFlags e.si.flags then walkStorageVisits a inc rest
      else if e.si.addrHash != a || e.si.incarnation != inc then []
      else e.si :: walkStorageVisits a inc rest

/-- `AccountItem` (only the fields the embedded walk reads; the decoded
account payload is opaque here). -/
structure AccountItem where
  flags : Nat
  addrHash : Nat
  account : List Nat
deriving DecidableEq

inductive AccountTreeEntry where
  | item (ai : AccountItem) : AccountTreeEntry
  | writeItem (ai : AccountItem) : AccountTreeEntry
deriving DecidableEq

def AccountTreeEntry.ai : AccountTreeEntry → AccountItem
  | .item a => a
  | .writeItem a => a

/-- `StateCache.WalkAccounts` (trie_cache.go lines 758-785), applied to the
items at or after its seek position: skip Absent/Deleted items, visit live
ones, stop after the first visit for which the walker returns `goOn =
false`. -/
def walkAccountsVisits (goOn : AccountItem → Bool) :
    List AccountTreeEntry → List AccountItem
  | [] => []
  | e :: rest =>
      if !isLiveFlags e.ai.flags then walkAccountsVisits goOn rest
      else if goOn e.ai then e.ai :: walkAccountsVisits goOn rest
      else [e.ai]

theorem walkAccountHashesVisits_live (l : List AccountHashItem) :
    (walkAccountHashesVisits l).all (fun it => isLiveFlags it.flags) = true := by
  induction l with
  | nil => rfl
  | cons it rest ih =>
      by_cases h : isLiveFlags it.flags
      · simpa [walkAccountHashesVisits, h] using ih
      · simpa [walkAccountHashesVisits, h] using ih

theorem accountHashesGo_live (l : List AccountHashItem) (pfx : List Nat)
    (fuel : Nat) :
    ∀ seekPfx, (accountHashesGo l pfx fuel seekPfx).all
      (fun it => isLiveFlags it.flags) = true := by
  induction fuel with
  | zero => intro seekPfx; rfl
  | succ n ih =>
      intro seekPfx
      rw [accountHashesGo]
      cases hcur : ahiFirstLiveGE l (mkAccountHashSeek seekPfx) with
      | none => rfl
      | some cur =>
          have hlive : isLiveFlags cur.flags = true := by
            rw [ahiFirstLiveGE] at hcur
            have h2 := List.find?_some hcur
            simpa using h2
          by_cases hpfx : pfx.isPrefixOf cur.addrHashPrefix
          · simp only [hpfx, Bool.not_true, Bool.false_eq_true, if_false]
            cases hnext : nextNibblesSubtree cur.addrHashPrefix with
            | none => simp [hlive]
            | some s' => simp [hlive, ih s']
          · simp [hpfx]

theorem storageHashesGo_live (l : List StorageHashItem) (a inc : Nat) (fuel : Nat) :
    ∀ seekPfx, (storageHashesGo l a inc fuel seekPfx).all
      (fun it => isLiveFlags it.flags) = true := by
  induction fuel with
  | zero => intro seekPfx; rfl
  | succ n ih =>
      intro seekPfx
      rw [storageHashesGo]
      cases hcur : shiFirstLiveGE l (mkStorageHashSeek a inc seekPfx) with
      | none => rfl
      | some cur =>
          have hlive : isLiveFlags cur.flags = true := by
            rw [shiFirstLiveGE] at hcur
            have h2 := List.find?_some hcur
            simpa using h2
          by_cases hstop : (cur.addrHash != a || cur.incarnation != inc) = true
          · simp [hstop]
          · simp only [Bool.not_eq_true] at hstop
            simp only [hstop, Bool.false_eq_true, if_false]
            cases hnext : nextNibblesSubtree cur.locHashPrefix with
            | none => simp [hlive]
            | some s' => simp [hlive, ih s']

theorem walkStorageVisits_live (a inc : Nat) (l : List StorageTreeEntry) :
    (walkStorageVisits a inc l).all (fun it => isLiveFlags it.flags) = true := by
  induction l with
  | nil => rfl
  | cons e rest ih =>
      by_cases h : isLiveFlags e.si.flags
      · by_cases hstop : (e.si.addrHash != a || e.si.incarnation != inc) = true
        · simp [walkStorageVisits, h, hstop]
        · simp only [Bool.not_eq_true] at hstop
          simpa [walkStorageVisits, h, hstop] using ih
      · simpa [walkStorageVisits, h] using ih

theorem walkAccountsVisits_live (goOn : AccountItem → Bool) (l : List AccountTreeEntry) :
    (walkAccountsVisits goOn l).all (fun it => isLiveFlags it.flags) = true := by
  induction l with
  | nil => rfl
  | cons e rest ih =>
      by_cases h : isLiveFlags e.ai.flags
      · by_cases hgo : goOn e.ai = true
        · simpa [walkAccountsVisits, h, hgo] using ih
        · simp [walkAccountsVisits, h, hgo]
      · simpa [walkAccountsVisits, h] using ih

/-- C2 amended: the live-state enumerations of StateCache —
`AccountHashes`, `WalkAccountHashes`, `StorageHashes`, `WalkStorage`,
`WalkAccounts` — never hand their visitor/walker an item whose flags include
Absent or Deleted (their internal seek steps filter such items out).  The
bare seek operations `AccountHashesSeek` and `StorageHashesSeek`, however,
return the first item at or after the seek position without any flag
filtering, so they can return an Absent or Deleted item (see the
counterexample); callers must check flags themselves. -/
theorem live_enumerations_skip_absent_and_deleted
    (l : List AccountHashItem) (ls : List StorageHashItem)
    (lst : List StorageTreeEntry) (lac : List AccountTreeEntry)
    (pfx : List Nat) (a inc : Nat) (goOn : AccountItem → Bool) :
    (accountHashesVisits l pfx).all (fun it => isLiveFlags it.flags) = true
    ∧ (walkAccountHashesVisits l).all (fun it => isLiveFlags it.flags) = true
    ∧ (storageHashesVisits ls a inc).all (fun it => isLiveFlags it.flags) = true
    ∧ (walkStorageVisits a inc lst).all (fun it => isLiveFlags it.flags) = true
    ∧ (walkAccountsVisits goOn lac).all (fun it => isLiveFlags it.flags) = true :=
  ⟨accountHashesGo_live l pfx (l.length + 1) pfx,
   walkAccountHashesVisits_live l,
   storageHashesGo_live ls a inc (ls.length + 1) [],
   walkStorageVisits_live a inc lst,
   walkAccountsVisits_live goOn lac⟩

/-- C2 counterexample: `StateCache.AccountHashesSeek` performs no flag check
and returns a Deleted item as-is: on a cache whose account-hash tree holds a
single item flagged Deleted, the seek returns that item. -/
theorem accountHashesSeek_returns_deleted_counterexample :
    accountHashesSeek [⟨DeletedFlag, 2, 0, 0, [], [3]⟩] [] =
      some ⟨DeletedFlag, 2, 0, 0, [], [3]⟩
    ∧ hasFlag (AccountHashItem.mk DeletedFlag 2 0 0 [] [3]).flags DeletedFlag = true := by
  exact ⟨by decide, by decide⟩

theorem shiLess_true_imp (x y : StorageHashItem) (h : shiLess x y = true) :
    x.addrHash < y.addrHash ∨ (x.addrHash = y.addrHash ∧ x.incarnation ≤ y.incarnation) := by
  unfold shiLess at h
  split at h
  next h1 => exact Or.inl (of_decide_eq_true h)
  next h1 =>
    have hx : x.addrHash = y.addrHash := not_ne_iff.mp h1
    split at h
    next h2 => exact Or.inr ⟨hx, le_of_lt (of_decide_eq_true h)⟩
    next h2 => exact Or.inr ⟨hx, le_of_eq (not_ne_iff.mp h2)⟩

theorem shiLess_false_imp (x y : StorageHashItem) (h : shiLess x y = false) :
    y.addrHash < x.addrHash
    ∨ (x.addrHash = y.addrHash ∧ (y.incarnation < x.incarnation ∨ x.incarnation = y.incarnation)) := by
  unfold shiLess at h
  split at h
  next h1 =>
    have := of_decide_eq_false h
    exact Or.inl (by omega)
  next h1 =>
    have hx : x.addrHash = y.addrHash := not_ne_iff.mp h1
    split at h
    next h2 =>
      have := of_decide_eq_false h
      exact Or.inr ⟨hx, Or.inl (by omega)⟩
    next h2 => exact Or.inr ⟨hx, Or.inr (not_ne_iff.mp h2)⟩

theorem seek_head_mismatch_no_later_match (a inc : Nat) (pfx : List Nat)
    (x y : StorageHashItem)
    (hx : shiLess x (mkStorageHashSeek a inc pfx) = false)
    (hmix : ¬(x.addrHash = a ∧ x.incarnation = inc))
    (hxy : shiLess x y = true) (hya : y.addrHash = a) (hyi : y.incarnation = inc) :
    False := by
  have h1 := shiLess_true_imp x y hxy
  have h2 := shiLess_false_imp x (mkStorageHashSeek a inc pfx) hx
  have hsa : (mkStorageHashSeek a inc pfx).addrHash = a := rfl
  have hsi : (mkStorageHashSeek a inc pfx).incarnation = inc := rfl
  rw [hsa, hsi] at h2
  have hkey : x.addrHash ≠ a ∨ x.incarnation ≠ inc := by tauto
  rcases h1 with ha | ⟨ha, hi⟩ <;> rcases h2 with hb | ⟨hb, hc⟩ <;>
    (try rcases hc with hc | hc) <;> rcases hkey with hk | hk <;> omega

theorem storageHashesSeek_eq_aux (a inc : Nat) (pfx : List Nat) :
    ∀ l : List StorageHashItem, l.Pairwise (fun x y => shiLess x y = true) →
    storageHashesSeek l a inc pfx =
      (l.filter (fun it => !shiLess it (mkStorageHashSeek a inc pfx)
          && it.addrHash == a && it.incarnation == inc)).head? := by
  intro l
  induction l with
  | nil => intro _; rfl
  | cons x rest ih =>
      intro hsorted
      obtain ⟨hhead, htail⟩ := List.pairwise_cons.mp hsorted
      by_cases hx : shiLess x (mkStorageHashSeek a inc pfx) = true
      · have e1 : shiItemsGE (x :: rest) (mkStorageHashSeek a inc pfx) =
            shiItemsGE rest (mkStorageHashSeek a inc pfx) := by
          simp [shiItemsGE, List.filter_cons, hx]
        have eL : storageHashesSeek (x :: rest) a inc pfx =
            storageHashesSeek rest a inc pfx := by
          unfold storageHashesSeek
          rw [e1]
        have e2 : (x :: rest).filter (fun it =>
            !shiLess it (mkStorageHashSeek a inc pfx)
              && it.addrHash == a && it.incarnation == inc) =
            rest.filter (fun it => !shiLess it (mkStorageHashSeek a inc pfx)
              && it.addrHash == a && it.incarnation == inc) := by
          simp [List.filter_cons, hx]
        rw [eL, e2]
        exact ih htail
      · have hx' : shiLess x (mkStorageHashSeek a inc pfx) = false :=
          Bool.not_eq_true _ ▸ (Bool.eq_false_iff.mpr hx)
        have e1 : shiItemsGE (x :: rest) (mkStorageHashSeek a inc pfx) =
            x :: shiItemsGE rest (mkStorageHashSeek a inc pfx) := by
          simp [shiItemsGE, List.filter_cons, hx']
        by_cases hmatch : x.addrHash = a ∧ x.incarnation = inc
        · have hLHS : storageHashesSeek (x :: rest) a inc pfx = some x := by
            unfold storageHashesSeek
            rw [e1]
            simp [hmatch.1, hmatch.2]
          have hPx : (!shiLess x (mkStorageHashSeek a inc pfx)
              && x.addrHash == a && x.incarnation == inc) = true := by
            simp [hx', hmatch.1, hmatch.2]
          rw [hLHS, List.filter_cons, if_pos hPx, List.head?_cons]
        · have hLHS : storageHashesSeek (x :: rest) a inc pfx = none := by
            unfold storageHashesSeek
            rw [e1]
            by_cases hxa : x.addrHash = a
            · have hxi : x.incarnation ≠ inc := fun h => hmatch ⟨hxa, h⟩
              simp [hxa, hxi]
            · simp [hxa]
          have hPx : (!shiLess x (mkStorageHashSeek a inc pfx)
              && x.addrHash == a && x.incarnation == inc) = false := by
            by_cases hxa : x.addrHash = a
            · have hxi : x.incarnation ≠ inc := fun h => hmatch ⟨hxa, h⟩
              simp [hxi]
            · simp [hxa]
          have hrest : rest.filter (fun it =>
              !shiLess it (mkStorageHashSeek a inc pfx)
                && it.addrHash == a && it.incarnation == inc) = [] := by
            rw [List.filter_eq_nil_iff]
            intro y hy hPy
            simp only [Bool.and_eq_true, Bool.not_eq_true', beq_iff_eq] at hPy
            exact seek_head_mismatch_no_later_match a inc pfx x y hx' hmatch
              (hhead y hy) hPy.1.2 hPy.2
          rw [hLHS, List.filter_cons, if_neg (by simp [hPx]), hrest]
          rfl

/-- C9: for every (sorted) cache state, `StateCache.StorageHashesSeek`
either returns the first cached storage-hash item at or after the seek
position whose address hash and incarnation equal the arguments exactly, or
returns the nil tuple; it never returns data belonging to a different
account or a different incarnation. -/
theorem storageHashesSeek_first_exact_match (l : List StorageHashItem) (a inc : Nat)
    (pfx : List Nat) (hsorted : l.Pairwise (fun x y => shiLess x y = true)) :
    storageHashesSeek l a inc pfx =
      (l.filter (fun it => !shiLess it (mkStorageHashSeek a inc pfx)
          && it.addrHash == a && it.incarnation == inc)).head?
    ∧ ∀ it, storageHashesSeek l a inc pfx = some it →
        it.addrHash = a ∧ it.incarnation = inc := by
  refine ⟨storageHashesSeek_eq_aux a inc pfx l hsorted, fun it hit => ?_⟩
  unfold storageHashesSeek at hit
  cases hh : (shiItemsGE l (mkStorageHashSeek a inc pfx)).head? with
  | none => rw [hh] at hit; exact absurd hit (by simp)
  | some found =>
      rw [hh] at hit
      have hit' : (if found.addrHash ≠ a then none
          else if found.incarnation ≠ inc then none else some found) = some it := hit
      split at hit'
      next => exact absurd hit' (by simp)
      next h1 =>
        split at hit'
        next => exact absurd hit' (by simp)
        next h2 =>
          cases hit'
          exact ⟨not_ne_iff.mp h1, not_ne_iff.mp h2⟩

theorem storageHashesSeek_first_exact_match_witness :
    (List.Pairwise (fun x y => shiLess x y = true)
      [StorageHashItem.mk 0 0 0 0 5 1 [] [], StorageHashItem.mk 0 1 0 0 5 1 [] [2]])
    ∧ storageHashesSeek
        [StorageHashItem.mk 0 0 0 0 5 1 [] [], StorageHashItem.mk 0 1 0 0 5 1 [] [2]]
        5 1 [] =
      ([StorageHashItem.mk 0 0 0 0 5 1 [] [],
        StorageHashItem.mk 0 1 0 0 5 1 [] [2]].filter (fun it =>
          !shiLess it (mkStorageHashSeek 5 1 []) && it.addrHash == 5
            && it.incarnation == 1)).head? :=
  ⟨by decide,
   (storageHashesSeek_first_exact_match
      [StorageHashItem.mk 0 0 0 0 5 1 [] [], StorageHashItem.mk 0 1 0 0 5 1 [] [2]]
      5 1 [] (by decide)).1⟩

end TurboGeth
